import Mathlib

/-!
# gev: load balancing and server composition

A shallow embedding of `load_balance.go` (the two `LoadBalanceStrategy`
constructors) and of the composition code of `server.go` (`NewServer`,
`Server.handleNewConnection`, `Server.Stop`), followed by the properties
established about them.

Conventions of the embedding.

* A `*eventLoop` is a pointer; it is represented by a number (its address).
  The selectors of `load_balance.go` only index and copy pointers, so they are
  embedded polymorphically over the element type of the pool.
* A Go slice index expression that is out of range panics.  A panic is the
  result `none`.
* The closure returned by `RoundRobin()` owns the variable `nextLoopIndex`.
  The embedding passes that variable in and returns its new value.  The
  variable starts at `0`, and every assignment stores a remainder modulo a
  slice length, so it never is negative and never exceeds the largest Go
  `int`: it is a `Nat` here and the addition cannot wrap.
* Calls that leave the two source files (`stop`, `newEventLoop`, `log.Error`,
  ...) are recorded as events, in program order; what such a call returns is
  supplied by an environment.
-/

namespace Gev

/-! ## load_balance.go -/

/-- One call of the closure returned by `RoundRobin()`: reads
`loops[nextLoopIndex]`, then stores `(nextLoopIndex + 1) % len(loops)`.
The result is the loop read together with the new value of `nextLoopIndex`;
`none` is the index-out-of-range panic of the read. -/
def RoundRobin {α : Type} (nextLoopIndex : Nat) (loops : List α) : Option (α × Nat) :=
  if h : nextLoopIndex < loops.length then
    some (loops.get ⟨nextLoopIndex, h⟩, (nextLoopIndex + 1) % loops.length)
  else
    none

/-- A sequence of calls of one `RoundRobin()` closure, one call per pool of
`pools`, starting with `nextLoopIndex = cursor`.  Every call is recorded as
the index that was read and the loop that was returned; the second component
is the value of `nextLoopIndex` after the last call.  A panic of any call
makes the whole run `none`. -/
def roundRobinCalls {α : Type} : Nat → List (List α) → Option (List (Nat × α) × Nat)
  | cursor, [] => some ([], cursor)
  | cursor, loops :: pools =>
    match RoundRobin cursor loops with
    | none => none
    | some (l, next) =>
      match roundRobinCalls next pools with
      | none => none
      | some (rest, last) => some ((cursor, l) :: rest, last)

/-- For a run on a pool whose entries carry their own index as a tag (the
pool `loops.enum`, whose entry `i` is `(i, loops[i])`): the number of calls
that returned the entry tagged `i`.  The count looks at what the selector
returned, the second component of a record, and not at the cursor. -/
def visits {α : Type} (calls : List (Nat × (Nat × α))) (i : Nat) : Nat :=
  calls.countP (fun c => c.2.1 == i)

/-- The closure returned by `LeastConnection()`: starts from `loops[0]` and
scans `loops[1..]` in index order, replacing the candidate whenever a loop's
`ConnectionCount()` is strictly smaller than the candidate's.  `none` is the
index-out-of-range panic of `loops[0]` on an empty pool. -/
def LeastConnection {α : Type} (ConnectionCount : α → Int) (loops : List α) : Option α :=
  match loops with
  | [] => none
  | l0 :: rest =>
    some (rest.foldl (fun l li => if ConnectionCount li < ConnectionCount l then li else l) l0)

/-- Modelled from the spec: the bookkeeping of a loop's connection count,
which lives outside `load_balance.go` and `server.go` ("incremented on
registration, decremented on teardown").  The pool holds the loops
`0, ..., N-1` and `counts` holds the `ConnectionCount()` of each.  One
accepted connection is given to the loop chosen by `LeastConnection` (the
source function above), and that loop's count goes up by one before anything
else happens; no connection closes.  `none` is the panic of the selector. -/
def assignConnection (counts : List Int) : Option (List Int) :=
  match LeastConnection (fun l => counts.getD l 0) (List.range counts.length) with
  | none => none
  | some l => some (counts.set l (counts.getD l 0 + 1))

/-- The result of `m` assignments in a row, each by `assignConnection`. -/
def assignConnections : Nat → List Int → Option (List Int)
  | 0, counts => some counts
  | m + 1, counts =>
    match assignConnection counts with
    | none => none
    | some counts1 => assignConnections m counts1

/-! ## server.go -/

/-- A `*eventLoop`, by the address it holds. -/
abbrev eventLoop := Nat

/-- An `error` value, by its message. -/
abbrev Error := String

/-- The `*Connection` built by `NewConnection(fd, loop, sa, ...)`: the
descriptor, the loop it is bound to and the peer address. -/
structure Connection where
  fd : Int
  loop : eventLoop
  sa : Nat
  deriving DecidableEq, Repr

/-- The closure passed to `queueInLoop` by `handleNewConnection`, by the
variables it captures. -/
structure Task where
  c : Connection
  loop : eventLoop
  fd : Int
  deriving DecidableEq, Repr

/-- The calls that leave `server.go`, as they appear in a run. -/
inductive Event where
  /-- `timingwheel.NewTimingWheel(tick, wheelSize)` -/
  | newTimingWheel
  /-- `newEventLoop()` -/
  | newEventLoop
  /-- `newListener(network, address, reusePort, loop, handleNewConnection)` -/
  | newListener (loop : eventLoop)
  /-- `loop.addSocketAndEnableRead(fd, handler)` -/
  | addSocketAndEnableRead (loop : eventLoop) (fd : Int)
  /-- `s.timingWheel.Stop()` -/
  | timingWheelStop
  /-- `l.stop()` -/
  | loopStop (l : eventLoop)
  /-- `log.Error(..., err)` -/
  | logError (err : Error)
  /-- `s.opts.Strategy(loops)` -/
  | strategy (loops : List eventLoop)
  /-- `NewConnection(fd, loop, sa, ...)` -/
  | newConnection (c : Connection)
  /-- `loop.queueInLoop(task)` -/
  | queueInLoop (loop : eventLoop) (task : Task)
  /-- `s.callback.OnConnect(c)` -/
  | onConnect (c : Connection)
  /-- The teardown of a connection (closing `c`, releasing its descriptor).
  No statement of `server.go` makes this call; the constructor is here so
  that its absence from a run can be stated. -/
  | connectionClose (c : Connection)
  deriving DecidableEq, Repr

/-- Whether the event is a call of a `Stop`/`stop` method. -/
def Event.isStopCall : Event → Bool
  | .timingWheelStop => true
  | .loopStop _ => true
  | _ => false

/-- The loop a `stop()` call is made on, for the events that are such a call. -/
def Event.stoppedLoop : Event → Option eventLoop
  | .loopStop l => some l
  | _ => none

/-- The error handed to `log.Error`, for the events that are such a call. -/
def Event.loggedError : Event → Option Error
  | .logError err => some err
  | _ => none

/-- The fields of `Server` that `NewServer`, `handleNewConnection` and `Stop`
read or write after construction. -/
structure Server where
  loop : eventLoop
  workLoops : List eventLoop
  running : Bool
  deriving DecidableEq, Repr

/-- What the calls made by `NewServer` return. -/
structure NewServerEnv where
  /-- The result `(loop, err)` of call number `n` of `newEventLoop()`,
  counting from 0. -/
  newEventLoop : Nat → eventLoop × Option Error
  /-- The result of `newListener`: the listener's `fd` and `err`. -/
  newListener : Int × Option Error
  /-- The result of `server.loop.addSocketAndEnableRead(l.fd, l)`. -/
  addSocketAndEnableRead : Option Error
  /-- The result of `runtime.NumCPU()`. -/
  NumCPU : Nat

/-- The loop `for i := 0; i < NumLoops; i++` of `NewServer`, entered with
`remaining` iterations to go, `wloops` holding the loops created so far (in
index order) and `calls` calls of `newEventLoop()` made before.  A failing
creation stops `wloops[0..i-1]` in index order, dropping what `stop`
returns, and returns the error. -/
def newWorkLoops (env : NewServerEnv) :
    Nat → Nat → List eventLoop → Except Error (List eventLoop) × List Event
  | 0, _, wloops => (.ok wloops, [])
  | remaining + 1, calls, wloops =>
    match env.newEventLoop calls with
    | (_, some err) => (.error err, Event.newEventLoop :: wloops.map Event.loopStop)
    | (l, none) =>
      let (r, t) := newWorkLoops env remaining (calls + 1) (wloops ++ [l])
      (r, Event.newEventLoop :: t)

/-- The function `NewServer(handler, opts...)`.  `handlerIsNil` is
`handler == nil` and `NumLoops` the configured `opts.NumLoops`.  The result
is `(server, err)`, with `.error err` for `return nil, err`, together with
the calls made. -/
def NewServer (env : NewServerEnv) (handlerIsNil : Bool) (NumLoops : Int) :
    Except Error Server × List Event :=
  if handlerIsNil then
    (.error "handler is nil", [])
  else
    match env.newEventLoop 0 with
    | (loop, some err) =>
      (.error err, [.newTimingWheel, .newEventLoop, .loopStop loop])
    | (loop, none) =>
      match env.newListener with
      | (_, some err) => (.error err, [.newTimingWheel, .newEventLoop, .newListener loop])
      | (fd, none) =>
        match env.addSocketAndEnableRead with
        | some err =>
          (.error err, [.newTimingWheel, .newEventLoop, .newListener loop,
            .addSocketAndEnableRead loop fd])
        | none =>
          let n : Nat := if NumLoops ≤ 0 then env.NumCPU else NumLoops.toNat
          let (r, t) := newWorkLoops env n 1 []
          let pre := [Event.newTimingWheel, .newEventLoop, .newListener loop,
            .addSocketAndEnableRead loop fd]
          match r with
          | .error err => (.error err, pre ++ t)
          | .ok wloops => (.ok { loop := loop, workLoops := wloops, running := false }, pre ++ t)

/-- The function `Server.handleNewConnection(fd, sa)`.  `Strategy` is
`s.opts.Strategy` with its own state `st` made explicit (the cursor of a
`RoundRobin()` closure; nothing for `LeastConnection()`); `none` is a panic
of the strategy.  The result is the strategy's new state and the calls
made, the last of which queues the registration task. -/
def Server.handleNewConnection {σ : Type}
    (Strategy : σ → List eventLoop → Option (eventLoop × σ)) (st : σ)
    (s : Server) (fd : Int) (sa : Nat) : Option (σ × List Event) :=
  match Strategy st s.workLoops with
  | none => none
  | some (loop, st1) =>
    let c : Connection := { fd := fd, loop := loop, sa := sa }
    some (st1, [.strategy s.workLoops, .newConnection c,
      .queueInLoop loop { c := c, loop := loop, fd := fd }])

/-- The body of the closure queued by `handleNewConnection`, run by the
loop: `OnConnect(c)`, then `loop.addSocketAndEnableRead(fd, c)`, whose
result is `registration`, and `log.Error` when that is an error.  The
closure is a `func()`: it has no result. -/
def Task.run (task : Task) (registration : Option Error) : List Event :=
  [.onConnect task.c, .addSocketAndEnableRead task.loop task.fd] ++
    match registration with
    | some err => [.logError err]
    | none => []

/-- What the `stop()` calls made by `Server.Stop` return: `loop` for
`s.loop.stop()`, `workLoops k` for `s.workLoops[k].stop()`. -/
structure StopResults where
  loop : Option Error
  workLoops : Nat → Option Error

/-- The statement `if err := l.stop(); err != nil { log.Error(err) }`. -/
def stopAndLog (l : eventLoop) (result : Option Error) : List Event :=
  match result with
  | some err => [.loopStop l, .logError err]
  | none => [.loopStop l]

/-- The method `Server.Stop()`: the server after the call and the calls
made.  `Stop` has no result. -/
def Server.Stop (r : StopResults) (s : Server) : Server × List Event :=
  if s.running then
    ({ s with running := false },
      s.workLoops.enum.foldl (fun t kl => t ++ stopAndLog kl.2 (r.workLoops kl.1))
        ([.timingWheelStop] ++ stopAndLog s.loop r.loop))
  else
    (s, [])

/-- The strategy `RoundRobin()` in the shape `handleNewConnection` takes. -/
def roundRobinStrategy : Nat → List eventLoop → Option (eventLoop × Nat) :=
  fun nextLoopIndex loops =>
    match RoundRobin nextLoopIndex loops with
    | some (l, next) => some (l, next)
    | none => none

/-- The strategy `LeastConnection()` in the shape `handleNewConnection`
takes; it has no state. -/
def leastConnectionStrategy (ConnectionCount : eventLoop → Int) :
    Unit → List eventLoop → Option (eventLoop × Unit) :=
  fun _ loops =>
    match LeastConnection ConnectionCount loops with
    | some l => some (l, ())
    | none => none

/-! ## Properties of `RoundRobin` -/

/-- The loop of a non-empty pool at index `n` modulo the pool's length. -/
def loopAt {α : Type} (loops : List α) (h : loops ≠ []) (n : Nat) : α :=
  loops.get ⟨n % loops.length, Nat.mod_lt n (List.length_pos.mpr h)⟩

theorem loopAt_congr {α : Type} (loops : List α) (h : loops ≠ []) {a b : Nat}
    (hab : a % loops.length = b % loops.length) : loopAt loops h a = loopAt loops h b := by
  unfold loopAt
  congr 2

theorem RoundRobin_eq_of_lt {α : Type} (loops : List α) (h : loops ≠ []) (c : Nat)
    (hc : c < loops.length) :
    RoundRobin c loops = some (loopAt loops h c, (c + 1) % loops.length) := by
  unfold RoundRobin loopAt
  simp only [hc, dite_true]
  congr 3
  exact Fin.ext (Nat.mod_eq_of_lt hc).symm

theorem RoundRobin_eq_none {α : Type} (loops : List α) (c : Nat) (hc : loops.length ≤ c) :
    RoundRobin c loops = none := by
  unfold RoundRobin
  simp [Nat.not_lt.mpr hc]

/-- Repeated calls on one non-empty pool from any cursor inside the pool:
call `n` reads index `(c + n) % K`. -/
theorem roundRobinCalls_replicate {α : Type} (loops : List α) (h : loops ≠ []) (M : Nat) :
    ∀ c, c < loops.length →
      roundRobinCalls c (List.replicate M loops) =
        some ((List.range M).map (fun n => ((c + n) % loops.length, loopAt loops h (c + n))),
          (c + M) % loops.length) := by
  induction M with
  | zero =>
    intro c hc
    simp [roundRobinCalls, Nat.mod_eq_of_lt hc]
  | succ M ih =>
    intro c hc
    have hK : 0 < loops.length := List.length_pos.mpr h
    have hc1 : (c + 1) % loops.length < loops.length := Nat.mod_lt _ hK
    rw [List.replicate_succ, roundRobinCalls, RoundRobin_eq_of_lt loops h c hc]
    simp only [ih _ hc1]
    rw [List.range_succ_eq_map, List.map_cons, List.map_map]
    refine congrArg some (Prod.ext ?_ ?_)
    · simp only [Nat.add_zero, Nat.mod_eq_of_lt hc]
      refine congrArg (List.cons _) (List.map_congr_left ?_)
      intro n _
      have e : ((c + 1) % loops.length + n) % loops.length = (c + (n + 1)) % loops.length := by
        rw [Nat.mod_add_mod]; congr 1; omega
      simp only [Function.comp, Nat.succ_eq_add_one]
      refine Prod.ext e ?_
      exact loopAt_congr loops h (by simpa using e)
    · simp only [Nat.mod_add_mod]
      congr 1; omega

/-- Among the numbers below `M`, those congruent to `i` modulo `K`. -/
theorem countP_mod_range (K M i : Nat) (hK : 0 < K) (hi : i < K) :
    (List.range M).countP (fun n => n % K == i) = M / K + if i < M % K then 1 else 0 := by
  have h1 : M.count (fun n => n ≡ i [MOD K]) = M / K + if i % K < M % K then 1 else 0 :=
    Nat.count_modEq_card M hK i
  rw [Nat.mod_eq_of_lt hi] at h1
  rw [← h1, Nat.count]
  refine List.countP_congr ?_
  intro n _
  simp [Nat.ModEq, Nat.mod_eq_of_lt hi]

theorem sum_range_add_boole (c r : Nat) :
    ∀ K, ((List.range K).map (fun i => c + if i < r then 1 else 0)).sum = K * c + min r K := by
  intro K
  induction K with
  | zero => simp
  | succ K ih =>
    rw [List.sum_range_succ, ih]
    by_cases hr : K < r
    · rw [if_pos hr, Nat.min_eq_right (Nat.le_of_lt hr), Nat.min_eq_right hr, Nat.succ_mul]
      omega
    · rw [if_neg hr, Nat.min_eq_left (Nat.le_of_not_lt hr),
        Nat.min_eq_left (Nat.le_succ_of_le (Nat.le_of_not_lt hr)), Nat.succ_mul]
      omega

theorem enum_ne_nil {α : Type} (loops : List α) (h : loops ≠ []) : loops.enum ≠ [] := by
  intro e
  apply h
  have := congrArg List.length e
  simpa using this

/-- Entry `n mod K` of the tagged pool is entry `n mod K` of the pool, tagged
with `n mod K`. -/
theorem loopAt_enum {α : Type} (loops : List α) (h : loops ≠ []) (n : Nat) :
    loopAt loops.enum (enum_ne_nil loops h) n = (n % loops.length, loopAt loops h n) := by
  unfold loopAt
  simp [List.getElem_enum]

/-- Repeated calls of a fresh selector on the tagged pool, in closed form. -/
theorem roundRobinCalls_enum {α : Type} (loops : List α) (h : loops ≠ []) (M : Nat) :
    roundRobinCalls 0 (List.replicate M loops.enum) =
      some ((List.range M).map
          (fun n => (n % loops.length, (n % loops.length, loopAt loops h n))),
        M % loops.length) := by
  have hK : 0 < loops.enum.length := List.length_pos.mpr (enum_ne_nil loops h)
  rw [roundRobinCalls_replicate loops.enum (enum_ne_nil loops h) M 0 hK]
  simp [loopAt_enum loops h]

/-- The visit counts of repeated calls on one tagged pool, in closed form. -/
theorem visits_replicate {α : Type} (loops : List α) (h : loops ≠ []) (M i : Nat)
    (hi : i < loops.length) :
    visits ((List.range M).map
        (fun n => (n % loops.length, (n % loops.length, loopAt loops h n)))) i =
      M / loops.length + if i < M % loops.length then 1 else 0 := by
  rw [visits, List.countP_map, ← countP_mod_range loops.length M i (List.length_pos.mpr h) hi]
  refine List.countP_congr ?_
  intro n _
  simp

theorem ceil_div_of_mod_pos (M K : Nat) (hK : 0 < K) (hr : 0 < M % K) :
    (M + K - 1) / K = M / K + 1 := by
  have hlt : M % K < K := Nat.mod_lt M hK
  have hM := Nat.div_add_mod M K
  apply Nat.div_eq_of_lt_le
  · rw [Nat.succ_mul, Nat.mul_comm]; omega
  · rw [Nat.succ_mul, Nat.succ_mul, Nat.mul_comm]; omega

/-- C1: for a non-empty pool of `K` loops and a fresh `RoundRobin()` selector
(cursor 0), `M` calls in a row on that pool all return, call number `n`
(from 0) reads index `n mod K` and returns the loop stored there, and the
cursor is left at `M mod K`; in particular the first call returns
`loops[0]`. -/
theorem roundRobin_cyclic_order {α : Type} (loops : List α) (h : loops ≠ []) (M : Nat) :
    roundRobinCalls 0 (List.replicate M loops) =
        some ((List.range M).map (fun n => (n % loops.length,
            loops.get ⟨n % loops.length, Nat.mod_lt n (List.length_pos.mpr h)⟩)),
          M % loops.length) ∧
      (RoundRobin 0 loops).map Prod.fst = loops.head? := by
  constructor
  · simpa [loopAt] using roundRobinCalls_replicate loops h M 0 (List.length_pos.mpr h)
  · cases loops with
    | nil => exact absurd rfl h
    | cons a t => simp [RoundRobin]

theorem roundRobin_cyclic_order_witness :
    roundRobinCalls 0 (List.replicate 5 [10, 20, 30]) =
        some ([(0, 10), (1, 20), (2, 30), (0, 10), (1, 20)], 2) ∧
      (RoundRobin 0 [10, 20, 30]).map Prod.fst = some 10 :=
  roundRobin_cyclic_order [10, 20, 30] (by decide) 5

/-- C2: for a non-empty pool of `K` loops, take `M` calls of a fresh
`RoundRobin()` selector on that pool.  To see which index each call returns,
the selector is run on the pool with every entry tagged by its index; the
calls all return, each returns an entry of the pool, and dropping the tags
gives the run on the pool itself.  The entry of index `i < K` is returned
`ceil(M/K)` times when `i < M mod K` and `floor(M/K)` times otherwise (so
always one of the two), and the counts of all indices add up to `M`.  When
the loops of the pool are pairwise distinct, the same counts hold of the
loops returned by the run on the pool itself. -/
theorem roundRobin_visit_counts {α : Type} [DecidableEq α] (loops : List α) (h : loops ≠ [])
    (M : Nat) :
    ∃ calls last, roundRobinCalls 0 (List.replicate M loops.enum) = some (calls, last) ∧
      roundRobinCalls 0 (List.replicate M loops) =
        some (calls.map (fun c => (c.1, c.2.2)), last) ∧
      calls.length = M ∧
      (∀ c, c ∈ calls → loops[c.2.1]? = some c.2.2) ∧
      (∀ i, i < loops.length →
        visits calls i =
          if i < M % loops.length then (M + loops.length - 1) / loops.length
          else M / loops.length) ∧
      (∀ i, i < loops.length →
        visits calls i = M / loops.length ∨
          visits calls i = (M + loops.length - 1) / loops.length) ∧
      ((List.range loops.length).map (visits calls)).sum = M ∧
      (loops.Nodup → ∀ i l, loops[i]? = some l →
        (calls.map (fun c => c.2.2)).count l =
          if i < M % loops.length then (M + loops.length - 1) / loops.length
          else M / loops.length) := by
  have hK : 0 < loops.length := List.length_pos.mpr h
  have hceil : ∀ i, (M / loops.length + if i < M % loops.length then 1 else 0) =
      if i < M % loops.length then (M + loops.length - 1) / loops.length
      else M / loops.length := by
    intro i
    by_cases hlt : i < M % loops.length
    · rw [if_pos hlt, if_pos hlt, ceil_div_of_mod_pos M loops.length hK (by omega)]
    · rw [if_neg hlt, if_neg hlt]; rfl
  have hv : ∀ i, i < loops.length →
      visits ((List.range M).map
        (fun n => (n % loops.length, (n % loops.length, loopAt loops h n)))) i =
        if i < M % loops.length then (M + loops.length - 1) / loops.length
        else M / loops.length := by
    intro i hi
    rw [visits_replicate loops h M i hi, hceil]
  refine ⟨_, _, roundRobinCalls_enum loops h M, ?_, by simp, ?_, hv, ?_, ?_, ?_⟩
  · rw [roundRobinCalls_replicate loops h M 0 hK]
    simp [Function.comp_def]
  · intro c hc
    obtain ⟨n, _, rfl⟩ := List.mem_map.mp hc
    simp only [loopAt, List.get_eq_getElem]
    exact List.getElem?_eq_getElem (Nat.mod_lt n hK)
  · intro i hi
    rw [hv i hi]
    by_cases hlt : i < M % loops.length
    · right; rw [if_pos hlt]
    · left; rw [if_neg hlt]
  · have e : (List.range loops.length).map (visits ((List.range M).map
          (fun n => (n % loops.length, (n % loops.length, loopAt loops h n))))) =
        (List.range loops.length).map
          (fun i => M / loops.length + if i < M % loops.length then 1 else 0) := by
      refine List.map_congr_left ?_
      intro i hi
      exact visits_replicate loops h M i (List.mem_range.mp hi)
    rw [e, sum_range_add_boole, Nat.min_eq_left (Nat.le_of_lt (Nat.mod_lt M hK))]
    exact Nat.div_add_mod M loops.length
  · intro hnd i l hil
    obtain ⟨hi, hget⟩ := List.getElem?_eq_some.mp hil
    rw [← hceil i, ← countP_mod_range loops.length M i hK hi, List.map_map, List.count,
      List.countP_map]
    refine List.countP_congr ?_
    intro n _
    have hinj := @List.Nodup.getElem_inj_iff α loops hnd (n % loops.length)
      (Nat.mod_lt n hK) i hi
    simp only [Function.comp, loopAt, List.get_eq_getElem, beq_iff_eq]
    rw [← hget]
    exact hinj

theorem roundRobin_visit_counts_witness :
    ∃ calls last,
      roundRobinCalls 0 (List.replicate 5 ([10, 20, 30] : List Nat).enum) = some (calls, last) ∧
      roundRobinCalls 0 (List.replicate 5 [10, 20, 30]) =
        some (calls.map (fun c => (c.1, c.2.2)), last) ∧
      calls.length = 5 ∧
      (∀ c, c ∈ calls → [10, 20, 30][c.2.1]? = some c.2.2) ∧
      (∀ i, i < 3 → visits calls i = if i < 5 % 3 then (5 + 3 - 1) / 3 else 5 / 3) ∧
      (∀ i, i < 3 → visits calls i = 5 / 3 ∨ visits calls i = (5 + 3 - 1) / 3) ∧
      ((List.range 3).map (visits calls)).sum = 5 ∧
      (([10, 20, 30] : List Nat).Nodup → ∀ i l, [10, 20, 30][i]? = some l →
        (calls.map (fun c => c.2.2)).count l =
          if i < 5 % 3 then (5 + 3 - 1) / 3 else 5 / 3) :=
  roundRobin_visit_counts [10, 20, 30] (by decide) 5

/-- C10: a call of a `RoundRobin()` selector returns (no index out of range)
exactly when its cursor is smaller than the length of the pool passed; the
cursor is 0 at first and `(index read + 1) mod (pool length)` after a call.
So calls that all pass one non-empty pool always return, a call on an empty
pool panics, and a call on a pool no longer than the cursor left by the call
before panics, as for a pool of 3 loops called twice and then a pool of
2 loops. -/
theorem roundRobin_returns_iff_cursor_in_pool {α : Type} :
    (∀ (c : Nat) (loops : List α), (RoundRobin c loops).isSome = true ↔ c < loops.length) ∧
      (∀ (c : Nat) (loops : List α) (l : α) (next : Nat),
        RoundRobin c loops = some (l, next) → next = (c + 1) % loops.length) ∧
      (∀ (loops : List α), loops ≠ [] →
        ∀ M, (roundRobinCalls 0 (List.replicate M loops)).isSome = true) ∧
      (∀ (c : Nat), RoundRobin c ([] : List α) = none) ∧
      (∀ (c : Nat) (p q : List α), c < p.length → q.length ≤ (c + 1) % p.length →
        roundRobinCalls c [p, q] = none) ∧
      roundRobinCalls 0 [[10, 20, 30], [10, 20, 30], [40, 50]] = none := by
  refine ⟨?_, ?_, ?_, ?_, ?_, by decide⟩
  · intro c loops
    unfold RoundRobin
    by_cases hc : c < loops.length <;> simp [hc]
  · intro c loops l next hcall
    unfold RoundRobin at hcall
    by_cases hc : c < loops.length
    · simp only [hc, dite_true, Option.some.injEq, Prod.mk.injEq] at hcall
      exact hcall.2.symm
    · simp [hc] at hcall
  · intro loops h M
    rw [roundRobinCalls_replicate loops h M 0 (List.length_pos.mpr h)]
    rfl
  · intro c
    exact RoundRobin_eq_none [] c (Nat.zero_le c)
  · intro c p q hc hq
    have hp : p ≠ [] := by
      intro hnil; subst hnil; simp at hc
    simp [roundRobinCalls, RoundRobin_eq_of_lt p hp c hc, RoundRobin_eq_none q _ hq]

/-! ## Properties of `LeastConnection` -/

/-- The scan of `LeastConnection`, entered with candidate `l0` after the
prefix `pre` of the pool has been looked at: when the candidate sits at index
`k` of the prefix, has a count no larger than any of the prefix and strictly
smaller than any before `k`, the same holds of the final candidate in the
whole pool. -/
theorem leastConnection_scan {α : Type} (cc : α → Int) :
    ∀ (rest pre : List α) (l0 : α) (k : Nat),
      pre[k]? = some l0 →
      (∀ x, x ∈ pre → cc l0 ≤ cc x) →
      (∀ (j : Nat) (x : α), j < k → pre[j]? = some x → cc l0 < cc x) →
      ∃ k1, (pre ++ rest)[k1]? =
            some (rest.foldl (fun l li => if cc li < cc l then li else l) l0) ∧
        (∀ x, x ∈ pre ++ rest →
          cc (rest.foldl (fun l li => if cc li < cc l then li else l) l0) ≤ cc x) ∧
        (∀ (j : Nat) (x : α), j < k1 → (pre ++ rest)[j]? = some x →
          cc (rest.foldl (fun l li => if cc li < cc l then li else l) l0) < cc x) := by
  intro rest
  induction rest with
  | nil =>
    intro pre l0 k hk hmin hfirst
    exact ⟨k, by simpa using hk, by simpa using hmin, by simpa using hfirst⟩
  | cons y ys ih =>
    intro pre l0 k hk hmin hfirst
    have hklt : k < pre.length := (List.getElem?_eq_some.mp hk).1
    have happ : pre ++ y :: ys = (pre ++ [y]) ++ ys := by simp
    rw [List.foldl_cons, happ]
    by_cases hy : cc y < cc l0
    · rw [if_pos hy]
      apply ih (pre ++ [y]) y pre.length
      · exact List.getElem?_concat_length pre y
      · intro x hx
        rcases List.mem_append.mp hx with hx | hx
        · exact le_of_lt (lt_of_lt_of_le hy (hmin x hx))
        · rw [List.mem_singleton.mp hx]
      · intro j x hj hjx
        rw [List.getElem?_append_left hj] at hjx
        exact lt_of_lt_of_le hy (hmin x (List.getElem?_mem hjx))
    · rw [if_neg hy]
      apply ih (pre ++ [y]) l0 k
      · rw [List.getElem?_append_left hklt]; exact hk
      · intro x hx
        rcases List.mem_append.mp hx with hx | hx
        · exact hmin x hx
        · rw [List.mem_singleton.mp hx]; exact not_lt.mp hy
      · intro j x hj hjx
        rw [List.getElem?_append_left (lt_trans hj hklt)] at hjx
        exact hfirst j x hj hjx

/-- The loop returned by `LeastConnection` on a non-empty pool, with the
index it was taken from. -/
theorem leastConnection_spec {α : Type} (cc : α → Int) (loops : List α) (h : loops ≠ []) :
    ∃ (l : α) (k : Nat), LeastConnection cc loops = some l ∧ loops[k]? = some l ∧
      (∀ x, x ∈ loops → cc l ≤ cc x) ∧
      (∀ (j : Nat) (x : α), j < k → loops[j]? = some x → cc l < cc x) := by
  cases loops with
  | nil => exact absurd rfl h
  | cons l0 rest =>
    obtain ⟨k, h1, h2, h3⟩ := leastConnection_scan cc rest [l0] l0 0 (by simp)
      (by intro x hx; rw [List.mem_singleton.mp hx]) (by intro j x hj; omega)
    exact ⟨_, k, rfl, by simpa using h1, by simpa using h2, by simpa using h3⟩

/-- C3: on a non-empty pool, with `ConnectionCount()` a fixed value per loop
during the call, `LeastConnection` returns a loop that is a member of the
pool and whose count is at most the count of every loop of the pool. -/
theorem leastConnection_returns_minimum {α : Type} (ConnectionCount : α → Int)
    (loops : List α) (h : loops ≠ []) :
    ∃ l, LeastConnection ConnectionCount loops = some l ∧ l ∈ loops ∧
      ∀ x, x ∈ loops → ConnectionCount l ≤ ConnectionCount x := by
  obtain ⟨l, k, h1, h2, h3, _⟩ := leastConnection_spec ConnectionCount loops h
  exact ⟨l, h1, List.getElem?_mem h2, h3⟩

theorem leastConnection_returns_minimum_witness :
    ∃ l : Int, LeastConnection (fun x : Int => x) [3, 1, 2, 1] = some l ∧ l ∈ [3, 1, 2, 1] ∧
      ∀ x : Int, x ∈ [3, 1, 2, 1] → (fun x : Int => x) l ≤ (fun x : Int => x) x :=
  leastConnection_returns_minimum (fun x : Int => x) [3, 1, 2, 1] (by decide)

/-- C4: on a non-empty pool `LeastConnection` returns the loop at the lowest
index among those with the minimum count: the loop returned sits at an index
`k` of the pool, its count is at most the count of every loop of the pool,
every loop at an index below `k` has a strictly greater count, and so every
index holding a loop with the returned loop's count (the minimum) is at
least `k`. -/
theorem leastConnection_lowest_index_on_tie {α : Type} (ConnectionCount : α → Int)
    (loops : List α) (h : loops ≠ []) :
    ∃ (l : α) (k : Nat), LeastConnection ConnectionCount loops = some l ∧ loops[k]? = some l ∧
      (∀ x, x ∈ loops → ConnectionCount l ≤ ConnectionCount x) ∧
      (∀ (j : Nat) (x : α), j < k → loops[j]? = some x →
        ConnectionCount l < ConnectionCount x) ∧
      (∀ (j : Nat) (x : α), loops[j]? = some x →
        (∀ y, y ∈ loops → ConnectionCount x ≤ ConnectionCount y) → k ≤ j) := by
  obtain ⟨l, k, h1, h2, h3, h4⟩ := leastConnection_spec ConnectionCount loops h
  refine ⟨l, k, h1, h2, h3, h4, ?_⟩
  intro j x hjx hmin
  by_contra hlt
  have hlx := h4 j x (not_le.mp hlt) hjx
  have hxl := hmin l (List.getElem?_mem h2)
  exact absurd hlx (not_lt.mpr hxl)

theorem leastConnection_lowest_index_on_tie_witness :
    ∃ (l : Nat × Int) (k : Nat),
      LeastConnection (fun p : Nat × Int => p.2) [(100, 3), (101, 1), (102, 2), (103, 1)] =
        some l ∧
      [(100, 3), (101, 1), (102, 2), (103, 1)][k]? = some l ∧
      (∀ x, x ∈ [(100, 3), (101, 1), (102, 2), (103, 1)] →
        (fun p : Nat × Int => p.2) l ≤ (fun p : Nat × Int => p.2) x) ∧
      (∀ (j : Nat) (x : Nat × Int), j < k → [(100, 3), (101, 1), (102, 2), (103, 1)][j]? = some x →
        (fun p : Nat × Int => p.2) l < (fun p : Nat × Int => p.2) x) ∧
      (∀ (j : Nat) (x : Nat × Int), [(100, 3), (101, 1), (102, 2), (103, 1)][j]? = some x →
        (∀ y, y ∈ [(100, 3), (101, 1), (102, 2), (103, 1)] →
          (fun p : Nat × Int => p.2) x ≤ (fun p : Nat × Int => p.2) y) → k ≤ j) :=
  leastConnection_lowest_index_on_tie (fun p : Nat × Int => p.2)
    [(100, 3), (101, 1), (102, 2), (103, 1)] (by decide)

/-! ## `LeastConnection` under successive assignments -/

theorem sum_set_succ : ∀ (counts : List Int) (l : Nat), l < counts.length →
    (counts.set l (counts.getD l 0 + 1)).sum = counts.sum + 1 := by
  intro counts
  induction counts with
  | nil => intro l hl; simp at hl
  | cons c cs ih =>
    intro l hl
    cases l with
    | zero => simp; ring
    | succ l =>
      have hl1 : l < cs.length := by simpa using hl
      have := ih l hl1
      simp only [List.getD_eq_getElem?_getD, List.getElem?_cons_succ, List.set_cons_succ,
        List.sum_cons] at this ⊢
      rw [this]; ring

/-- One assignment on a non-empty pool returns, keeps the number of loops,
adds one connection in all, and keeps the counts within one of each
other. -/
theorem assignConnection_step (counts : List Int) (h : counts ≠ [])
    (hbal : ∀ x, x ∈ counts → ∀ y, y ∈ counts → x ≤ y + 1) :
    ∃ counts1, assignConnection counts = some counts1 ∧ counts1.length = counts.length ∧
      counts1.sum = counts.sum + 1 ∧
      (∀ x, x ∈ counts1 → ∀ y, y ∈ counts1 → x ≤ y + 1) := by
  have hr : List.range counts.length ≠ [] := by
    intro e
    apply h
    simpa using e
  obtain ⟨l, k, hsel, hk, hmin, _⟩ :=
    leastConnection_spec (fun l => counts.getD l 0) (List.range counts.length) hr
  have hl : l < counts.length := List.mem_range.mp (List.getElem?_mem hk)
  have hget : counts.getD l 0 ∈ counts := by
    rw [List.getD_eq_getElem?_getD, List.getElem?_eq_getElem hl]
    exact List.getElem_mem hl
  have hle : ∀ y, y ∈ counts → counts.getD l 0 ≤ y := by
    intro y hy
    obtain ⟨j, hj⟩ := List.mem_iff_getElem?.mp hy
    have hjlt : j < counts.length := (List.getElem?_eq_some.mp hj).1
    have := hmin j (List.mem_range.mpr hjlt)
    simpa [hj] using this
  refine ⟨counts.set l (counts.getD l 0 + 1), ?_, by simp, sum_set_succ counts l hl, ?_⟩
  · unfold assignConnection
    rw [hsel]
  · intro x hx y hy
    rcases List.mem_or_eq_of_mem_set hx with hx | hx <;>
      rcases List.mem_or_eq_of_mem_set hy with hy | hy
    · exact hbal x hx y hy
    · have := hbal x hx _ hget
      rw [hy]; omega
    · have := hle y hy
      rw [hx]; omega
    · rw [hx, hy]; omega

theorem assignConnections_balanced (m : Nat) :
    ∀ (counts : List Int), counts ≠ [] →
      (∀ x, x ∈ counts → ∀ y, y ∈ counts → x ≤ y + 1) →
      ∃ counts1, assignConnections m counts = some counts1 ∧
        counts1.length = counts.length ∧ counts1.sum = counts.sum + m ∧
        (∀ x, x ∈ counts1 → ∀ y, y ∈ counts1 → x ≤ y + 1) := by
  induction m with
  | zero =>
    intro counts _ hbal
    exact ⟨counts, rfl, rfl, by simp, hbal⟩
  | succ m ih =>
    intro counts h hbal
    obtain ⟨c1, h1, hlen1, hsum1, hbal1⟩ := assignConnection_step counts h hbal
    have hc1 : c1 ≠ [] := by
      intro e; rw [e] at hlen1
      exact h (List.length_eq_zero.mp hlen1.symm)
    obtain ⟨c2, h2, hlen2, hsum2, hbal2⟩ := ih c1 hc1 hbal1
    refine ⟨c2, ?_, hlen2.trans hlen1, ?_, hbal2⟩
    · rw [assignConnections, h1]; exact h2
    · rw [hsum2, hsum1]; push_cast; ring

/-- C8: start from `N > 0` loops that all hold 0 connections and give `m`
connections, one after the other, each to the loop chosen by
`LeastConnection`, whose count goes up by one before the next choice (no
connection closes).  Every choice returns, the counts then add up to `m`,
and any two of them differ by at most 1.  With 2 loops and up to 3
connections the first loop never holds 2 or more connections more than the
second. -/
theorem leastConnection_keeps_balance (N m : Nat) (hN : 0 < N) :
    (∃ counts, assignConnections m (List.replicate N 0) = some counts ∧
        counts.length = N ∧ counts.sum = m ∧
        (∀ x, x ∈ counts → ∀ y, y ∈ counts → x ≤ y + 1)) ∧
      (∀ k, k ≤ 3 → ∃ a b, assignConnections k [0, 0] = some [a, b] ∧ ¬ (b + 2 ≤ a)) := by
  constructor
  · have hne : List.replicate N (0 : Int) ≠ [] := by
      intro e
      have := congrArg List.length e
      simp at this
      omega
    obtain ⟨c, h1, h2, h3, h4⟩ := assignConnections_balanced m (List.replicate N 0) hne
      (by intro x hx y hy; rw [List.eq_of_mem_replicate hx, List.eq_of_mem_replicate hy]; omega)
    exact ⟨c, h1, by simpa using h2, by simpa using h3, h4⟩
  · intro k hk
    interval_cases k
    · exact ⟨0, 0, rfl, by decide⟩
    · exact ⟨1, 0, rfl, by decide⟩
    · exact ⟨1, 1, rfl, by decide⟩
    · exact ⟨2, 1, rfl, by decide⟩

theorem leastConnection_keeps_balance_witness :
    (∃ counts, assignConnections 3 (List.replicate 2 0) = some counts ∧
        counts.length = 2 ∧ counts.sum = (3 : Nat) ∧
        (∀ x, x ∈ counts → ∀ y, y ∈ counts → x ≤ y + 1)) ∧
      (∀ k, k ≤ 3 → ∃ a b, assignConnections k [0, 0] = some [a, b] ∧ ¬ (b + 2 ≤ a)) :=
  leastConnection_keeps_balance 2 3 (by decide)

/-! ## Properties of `Server.Stop` -/

theorem stop_foldl_eq (r : Nat → Option Error) (xs : List (Nat × eventLoop)) :
    ∀ t0 : List Event, xs.foldl (fun t kl => t ++ stopAndLog kl.2 (r kl.1)) t0 =
      t0 ++ xs.flatMap (fun kl => stopAndLog kl.2 (r kl.1)) := by
  induction xs with
  | nil => intro t0; simp
  | cons x xs ih => intro t0; simp [ih]

/-- The calls made by `Stop` on a running server, as one list. -/
theorem stop_trace (r : StopResults) (s : Server) (h : s.running = true) :
    Server.Stop r s = ({ s with running := false },
      Event.timingWheelStop :: (stopAndLog s.loop r.loop ++
        s.workLoops.enum.flatMap (fun kl => stopAndLog kl.2 (r.workLoops kl.1)))) := by
  simp [Server.Stop, h, stop_foldl_eq]

theorem stop_not_running (r : StopResults) (s : Server) (h : s.running = false) :
    Server.Stop r s = (s, []) := by
  simp [Server.Stop, h]

theorem filter_isStopCall_stopAndLog (l : eventLoop) (res : Option Error) :
    (stopAndLog l res).filter Event.isStopCall = [Event.loopStop l] := by
  cases res <;> simp [stopAndLog, Event.isStopCall]

theorem filterMap_stoppedLoop_stopAndLog (l : eventLoop) (res : Option Error) :
    (stopAndLog l res).filterMap Event.stoppedLoop = [l] := by
  cases res <;> simp [stopAndLog, Event.stoppedLoop]

theorem filterMap_loggedError_stopAndLog (l : eventLoop) (res : Option Error) :
    (stopAndLog l res).filterMap Event.loggedError = res.toList := by
  cases res <;> simp [stopAndLog, Event.loggedError]

theorem count_timingWheelStop_stopAndLog (l : eventLoop) (res : Option Error) :
    (stopAndLog l res).count Event.timingWheelStop = 0 := by
  cases res <;> simp [stopAndLog]

theorem filter_isStopCall_workLoops (r : Nat → Option Error) (xs : List (Nat × eventLoop)) :
    (xs.flatMap (fun kl => stopAndLog kl.2 (r kl.1))).filter Event.isStopCall =
      xs.map (fun kl => Event.loopStop kl.2) := by
  induction xs with
  | nil => simp
  | cons x xs ih => simp [List.filter_append, filter_isStopCall_stopAndLog, ih]

theorem filterMap_stoppedLoop_workLoops (r : Nat → Option Error) (xs : List (Nat × eventLoop)) :
    (xs.flatMap (fun kl => stopAndLog kl.2 (r kl.1))).filterMap Event.stoppedLoop =
      xs.map Prod.snd := by
  induction xs with
  | nil => simp
  | cons x xs ih => simp [List.filterMap_append, filterMap_stoppedLoop_stopAndLog, ih]

theorem filterMap_loggedError_workLoops (r : Nat → Option Error) (xs : List (Nat × eventLoop)) :
    (xs.flatMap (fun kl => stopAndLog kl.2 (r kl.1))).filterMap Event.loggedError =
      (xs.map Prod.fst).filterMap r := by
  induction xs with
  | nil => simp
  | cons x xs ih =>
    simp only [List.flatMap_cons, List.filterMap_append, filterMap_loggedError_stopAndLog, ih,
      List.map_cons, List.filterMap_cons]
    cases r x.1 <;> simp

theorem count_timingWheelStop_workLoops (r : Nat → Option Error) (xs : List (Nat × eventLoop)) :
    (xs.flatMap (fun kl => stopAndLog kl.2 (r kl.1))).count Event.timingWheelStop = 0 := by
  induction xs with
  | nil => simp
  | cons x xs ih => simp [List.count_append, count_timingWheelStop_stopAndLog, ih]

theorem count_loopStop_eq (l : eventLoop) (t : List Event) :
    t.count (Event.loopStop l) = (t.filterMap Event.stoppedLoop).count l := by
  induction t with
  | nil => simp
  | cons e t ih =>
    cases e <;> simp [List.count_cons, Event.stoppedLoop, ih]

/-- C5: on a server whose running flag is true, two calls of `Stop` in a
row stop the timer wheel once and make the loop `stop()` calls on the
acceptor loop and then on each entry of the worker pool, once each (so a loop
is stopped exactly once when the loops are pairwise distinct): the first
call clears the flag, the second call finds it false, makes no call at all,
logs nothing and leaves the server as it was. -/
theorem stop_twice_stops_once (r1 r2 : StopResults) (s : Server) (h : s.running = true) :
    (Server.Stop r1 s).1 = { s with running := false } ∧
      Server.Stop r2 (Server.Stop r1 s).1 = ((Server.Stop r1 s).1, []) ∧
      ((Server.Stop r1 s).2 ++ (Server.Stop r2 (Server.Stop r1 s).1).2).count
          Event.timingWheelStop = 1 ∧
      ((Server.Stop r1 s).2 ++ (Server.Stop r2 (Server.Stop r1 s).1).2).filterMap
          Event.stoppedLoop = s.loop :: s.workLoops ∧
      ((s.loop :: s.workLoops).Nodup → ∀ l, l ∈ s.loop :: s.workLoops →
        ((Server.Stop r1 s).2 ++ (Server.Stop r2 (Server.Stop r1 s).1).2).count
          (Event.loopStop l) = 1) := by
  have h2 : Server.Stop r2 (Server.Stop r1 s).1 = ((Server.Stop r1 s).1, []) := by
    apply stop_not_running
    rw [stop_trace r1 s h]
  have hloops : ((Server.Stop r1 s).2 ++ (Server.Stop r2 (Server.Stop r1 s).1).2).filterMap
      Event.stoppedLoop = s.loop :: s.workLoops := by
    rw [h2, stop_trace r1 s h]
    simp [List.filterMap_append, filterMap_stoppedLoop_stopAndLog,
      filterMap_stoppedLoop_workLoops, List.enum_map_snd, Event.stoppedLoop]
  refine ⟨by rw [stop_trace r1 s h], h2, ?_, hloops, ?_⟩
  · rw [h2, stop_trace r1 s h]
    simp [List.count_append, count_timingWheelStop_stopAndLog,
      count_timingWheelStop_workLoops]
  · intro hnd l hl
    rw [count_loopStop_eq, hloops]
    exact List.count_eq_one_of_mem hnd hl

theorem stop_twice_stops_once_witness :
    (Server.Stop ⟨some "e", fun _ => none⟩ ⟨100, [101, 102], true⟩).1 =
        { (⟨100, [101, 102], true⟩ : Server) with running := false } ∧
      Server.Stop ⟨none, fun _ => none⟩
          (Server.Stop ⟨some "e", fun _ => none⟩ ⟨100, [101, 102], true⟩).1 =
        ((Server.Stop ⟨some "e", fun _ => none⟩ ⟨100, [101, 102], true⟩).1, []) ∧
      ((Server.Stop ⟨some "e", fun _ => none⟩ ⟨100, [101, 102], true⟩).2 ++
          (Server.Stop ⟨none, fun _ => none⟩
            (Server.Stop ⟨some "e", fun _ => none⟩ ⟨100, [101, 102], true⟩).1).2).count
          Event.timingWheelStop = 1 ∧
      ((Server.Stop ⟨some "e", fun _ => none⟩ ⟨100, [101, 102], true⟩).2 ++
          (Server.Stop ⟨none, fun _ => none⟩
            (Server.Stop ⟨some "e", fun _ => none⟩ ⟨100, [101, 102], true⟩).1).2).filterMap
          Event.stoppedLoop = [100, 101, 102] ∧
      (([100, 101, 102] : List eventLoop).Nodup → ∀ l, l ∈ ([100, 101, 102] : List eventLoop) →
        ((Server.Stop ⟨some "e", fun _ => none⟩ ⟨100, [101, 102], true⟩).2 ++
          (Server.Stop ⟨none, fun _ => none⟩
            (Server.Stop ⟨some "e", fun _ => none⟩ ⟨100, [101, 102], true⟩).1).2).count
          (Event.loopStop l) = 1) :=
  stop_twice_stops_once ⟨some "e", fun _ => none⟩ ⟨none, fun _ => none⟩
    ⟨100, [101, 102], true⟩ rfl

/-- C6: on a running server with `N` worker loops, whatever each `stop()`
returns, `Stop` stops the timer wheel, then the acceptor loop, then worker
loops `0, ..., N-1` in index order; the errors returned are handed to
`log.Error`, each right after the `stop()` that returned it, and nothing else
is done with them: every loop is stopped whichever stops fail, and `Stop`
has no error result. -/
theorem stop_order_and_logged_errors (r : StopResults) (s : Server) (h : s.running = true) :
    (Server.Stop r s).2.filter Event.isStopCall =
        Event.timingWheelStop :: Event.loopStop s.loop :: s.workLoops.map Event.loopStop ∧
      (Server.Stop r s).2.filterMap Event.loggedError =
        r.loop.toList ++ (List.range s.workLoops.length).filterMap r.workLoops ∧
      (Server.Stop r s).2 =
        Event.timingWheelStop :: (stopAndLog s.loop r.loop ++
          s.workLoops.enum.flatMap (fun kl => stopAndLog kl.2 (r.workLoops kl.1))) ∧
      (∀ e, e ∈ (Server.Stop r s).2 → e.isStopCall = true ∨ e.loggedError.isSome = true) := by
  have ht := stop_trace r s h
  have hstops : (Server.Stop r s).2.filter Event.isStopCall =
      Event.timingWheelStop :: Event.loopStop s.loop :: s.workLoops.map Event.loopStop := by
    rw [ht]
    simp only [List.filter_cons, Event.isStopCall, if_true, List.filter_append,
      filter_isStopCall_stopAndLog, filter_isStopCall_workLoops, List.singleton_append]
    have e : s.workLoops.enum.map (fun kl => Event.loopStop kl.2) =
        (s.workLoops.enum.map Prod.snd).map Event.loopStop := by
      rw [List.map_map]; rfl
    rw [e, List.enum_map_snd]
  refine ⟨hstops, ?_, by rw [ht], ?_⟩
  · rw [ht]
    simp [List.filterMap_append, filterMap_loggedError_stopAndLog,
      filterMap_loggedError_workLoops, List.enum_map_fst, Event.loggedError]
  · intro e he
    rw [ht] at he
    simp only [List.mem_cons, List.mem_append, List.mem_flatMap] at he
    have hsl : ∀ (l : eventLoop) (res : Option Error) (e : Event), e ∈ stopAndLog l res →
        e.isStopCall = true ∨ e.loggedError.isSome = true := by
      intro l res e he
      cases res with
      | none =>
        simp only [stopAndLog, List.mem_singleton] at he
        subst he; left; rfl
      | some err =>
        simp only [stopAndLog, List.mem_cons, List.mem_singleton, List.not_mem_nil,
          or_false] at he
        rcases he with he | he
        · subst he; left; rfl
        · subst he; right; rfl
    rcases he with he | he | ⟨kl, _, he⟩
    · subst he; left; rfl
    · exact hsl _ _ e he
    · exact hsl _ _ e he

theorem stop_order_and_logged_errors_witness :
    (Server.Stop ⟨some "e", fun k => if k = 1 then some "w1" else none⟩
          ⟨100, [101, 102, 103], true⟩).2.filter Event.isStopCall =
        [.timingWheelStop, .loopStop 100, .loopStop 101, .loopStop 102, .loopStop 103] ∧
      (Server.Stop ⟨some "e", fun k => if k = 1 then some "w1" else none⟩
          ⟨100, [101, 102, 103], true⟩).2.filterMap Event.loggedError = ["e", "w1"] ∧
      (Server.Stop ⟨some "e", fun k => if k = 1 then some "w1" else none⟩
          ⟨100, [101, 102, 103], true⟩).2 =
        [.timingWheelStop, .loopStop 100, .logError "e", .loopStop 101, .loopStop 102,
          .logError "w1", .loopStop 103] ∧
      (∀ e, e ∈ (Server.Stop ⟨some "e", fun k => if k = 1 then some "w1" else none⟩
          ⟨100, [101, 102, 103], true⟩).2 →
        e.isStopCall = true ∨ e.loggedError.isSome = true) :=
  stop_order_and_logged_errors ⟨some "e", fun k => if k = 1 then some "w1" else none⟩
    ⟨100, [101, 102, 103], true⟩ rfl

/-! ## `NewServer` when a worker loop cannot be created -/

/-- C7: `NewServer` with `NumLoops = 2`, where the acceptor loop (at 100)
and worker loop 0 (at 101) are created and the creation of worker loop 1
fails.  The error is returned and no server, and worker loop 0 is stopped
before that, but `stop()` is never called on the acceptor loop created
earlier in the same call. -/
theorem newServer_worker_failure_leaves_acceptor :
    NewServer ⟨fun n => (100 + n, if n = 2 then some "too many open files" else none),
        (5, none), none, 4⟩ false 2 =
      (.error "too many open files",
        [.newTimingWheel, .newEventLoop, .newListener 100, .addSocketAndEnableRead 100 5,
          .newEventLoop, .newEventLoop, .loopStop 101]) ∧
    Event.loopStop 101 ∈
      (NewServer ⟨fun n => (100 + n, if n = 2 then some "too many open files" else none),
        (5, none), none, 4⟩ false 2).2 ∧
    Event.loopStop 100 ∉
      (NewServer ⟨fun n => (100 + n, if n = 2 then some "too many open files" else none),
        (5, none), none, 4⟩ false 2).2 := by
  have h : NewServer ⟨fun n => (100 + n, if n = 2 then some "too many open files" else none),
        (5, none), none, 4⟩ false 2 =
      (.error "too many open files",
        [.newTimingWheel, .newEventLoop, .newListener 100, .addSocketAndEnableRead 100 5,
          .newEventLoop, .newEventLoop, .loopStop 101]) := rfl
  refine ⟨h, ?_, ?_⟩
  · rw [h]; simp
  · rw [h]; simp

/-! ## Properties of `Server.handleNewConnection` -/

/-- C9, as stated, fails: a connection on descriptor 7 is given to worker
loop 101 and its registration fails.  The queued task calls `OnConnect`,
attempts the registration and logs the error; it makes no call that tears the
connection down. -/
theorem handleNewConnection_failed_registration_no_teardown :
    Server.handleNewConnection roundRobinStrategy 0 ⟨100, [101, 102], true⟩ 7 1 =
        some (1, [.strategy [101, 102], .newConnection ⟨7, 101, 1⟩,
          .queueInLoop 101 ⟨⟨7, 101, 1⟩, 101, 7⟩]) ∧
      Task.run ⟨⟨7, 101, 1⟩, 101, 7⟩ (some "file exists") =
        [.onConnect ⟨7, 101, 1⟩, .addSocketAndEnableRead 101 7, .logError "file exists"] ∧
      Event.connectionClose ⟨7, 101, 1⟩ ∉ Task.run ⟨⟨7, 101, 1⟩, 101, 7⟩ (some "file exists") := by
  refine ⟨rfl, rfl, ?_⟩
  simp [Task.run]

/-- C9, amended: when the strategy returns `loop` for the worker pool,
`handleNewConnection` calls the strategy once, on the worker pool, builds
the connection on `loop` and queues one task on that same loop.  The task
calls `OnConnect` and then attempts the registration on `loop`; when the
registration fails the error is handed to `log.Error` and the task does
nothing else: no call tears the connection down, and the task, which has no
result, ends normally. -/
theorem handleNewConnection_dispatch {σ : Type}
    (Strategy : σ → List eventLoop → Option (eventLoop × σ)) (st st1 : σ) (s : Server)
    (fd : Int) (sa : Nat) (loop : eventLoop)
    (h : Strategy st s.workLoops = some (loop, st1)) :
    ∃ calls task, Server.handleNewConnection Strategy st s fd sa = some (st1, calls) ∧
      calls.filter (fun e => match e with | .strategy _ => true | _ => false) =
        [.strategy s.workLoops] ∧
      calls = [.strategy s.workLoops, .newConnection task.c, .queueInLoop loop task] ∧
      task.c = { fd := fd, loop := loop, sa := sa } ∧ task.loop = loop ∧ task.fd = fd ∧
      task.run none = [.onConnect task.c, .addSocketAndEnableRead loop fd] ∧
      (∀ err, task.run (some err) =
        [.onConnect task.c, .addSocketAndEnableRead loop fd, .logError err]) ∧
      (∀ registration c, Event.connectionClose c ∉ task.run registration) := by
  refine ⟨_, { c := { fd := fd, loop := loop, sa := sa }, loop := loop, fd := fd }, ?_, ?_,
    rfl, rfl, rfl, rfl, rfl, fun _ => rfl, ?_⟩
  · simp [Server.handleNewConnection, h]
  · simp
  · intro registration c
    cases registration <;> simp [Task.run]

theorem handleNewConnection_dispatch_witness :
    ∃ calls task, Server.handleNewConnection roundRobinStrategy 0 ⟨100, [101, 102], true⟩ 7 1 =
        some (1, calls) ∧
      calls.filter (fun e => match e with | .strategy _ => true | _ => false) =
        [.strategy [101, 102]] ∧
      calls = [.strategy [101, 102], .newConnection task.c, .queueInLoop 101 task] ∧
      task.c = { fd := 7, loop := 101, sa := 1 } ∧ task.loop = 101 ∧ task.fd = 7 ∧
      task.run none = [.onConnect task.c, .addSocketAndEnableRead 101 7] ∧
      (∀ err, task.run (some err) =
        [.onConnect task.c, .addSocketAndEnableRead 101 7, .logError err]) ∧
      (∀ registration c, Event.connectionClose c ∉ task.run registration) :=
  handleNewConnection_dispatch roundRobinStrategy 0 1 ⟨100, [101, 102], true⟩ 7 1 101 rfl

end Gev
